import Mathlib

/-!
# Verification of the doc2tex transcoders

A shallow embedding of the doc2tex conversion pipeline
(`doc2tex/docx.py`, `doc2tex/latex.py`, `doc2tex/converter.py`).
Text is modelled as `List Char`; each Python regular-expression helper is
translated to an executable scanner with the same leftmost-match semantics.
Helpers from `doc2tex/utils.py` (whose source is not in the tree) are
modelled from the specification and are marked as such in their doc comments.
Braces inside string literals are written with the escapes \x7b and \x7d.
-/

namespace DocTeX

/-! ## Basic text utilities -/

/-- Python's `\s` character class (ASCII part), used by `str.strip` and the
`\s+` in item extraction. -/
def isWS (c : Char) : Bool :=
  c == ' ' || c == '\t' || c == '\n' || c == '\r' || c == '\x0b' || c == '\x0c'

/-- Python `str.strip()`: remove leading and trailing whitespace. -/
def pyStrip (l : List Char) : List Char :=
  ((l.dropWhile isWS).reverse.dropWhile isWS).reverse

/-- Python's `str.startswith` / literal-at-position test of a regex: does
the text begin with the given pattern?  (Recursion is on the pattern, so
the empty pattern matches definitionally.) -/
def startsWith : List Char → List Char → Bool
  | [], _ => true
  | _ :: _, [] => false
  | p :: ps, c :: cs => p == c && startsWith ps cs

/-- Python's substring test `needle in hay`. -/
def containsSub : List Char → List Char → Bool
  | [], n => n.isEmpty
  | c :: t, n => startsWith n (c :: t) || containsSub t n

/-- Split a character list at the first closing brace: `some (before, after)`
when a brace exists, mirroring the greedy `[^}]+` capture followed by a
literal brace in the docx.py regexes (the capture stops at the first
closing brace). -/
def splitAtBrace : List Char → Option (List Char × List Char)
  | [] => none
  | c :: r =>
    if c = '\x7d' then some ([], r)
    else
      match splitAtBrace r with
      | some (a, b) => some (c :: a, b)
      | none => none

/-- Split at the first dollar sign, mirroring the `[^$]+` capture of the
inline-math pattern. -/
def splitAtDollar : List Char → Option (List Char × List Char)
  | [] => none
  | c :: r =>
    if c = '$' then some ([], r)
    else
      match splitAtDollar r with
      | some (a, b) => some (c :: a, b)
      | none => none

/-- Python `text.split('\\\\')` (split on the two-character LaTeX row
separator), as used by `_add_table`. -/
def splitRows : List Char → List (List Char)
  | [] => [[]]
  | '\\' :: '\\' :: s => [] :: splitRows s
  | c :: s =>
    match splitRows s with
    | r :: rs => (c :: r) :: rs
    | [] => [[c]]

/-- Python `text.split('&')` (cell separator), as used by `_add_table`. -/
def splitAmp : List Char → List (List Char)
  | [] => [[]]
  | '&' :: s => [] :: splitAmp s
  | c :: s =>
    match splitAmp s with
    | r :: rs => (c :: r) :: rs
    | [] => [[c]]

/-- First occurrence of `needle`: `some (before, after)` where `after` is the
text following the first occurrence.  Mirrors the non-greedy `(.*?)` up to a
literal token in the tabular regex. -/
def splitFirst (needle : List Char) : List Char → Option (List Char × List Char)
  | [] => none
  | c :: s =>
    if startsWith needle (c :: s) then some ([], (c :: s).drop needle.length)
    else
      match splitFirst needle s with
      | some (a, b) => some (c :: a, b)
      | none => none

/-- The LaTeX special characters handled by the escaping utilities. -/
def latexSpecials : List Char :=
  ['&', '%', '$', '#', '_', '\x7b', '\x7d']

/-- Modelled from the spec: `utils.unescape_latex` ("bidirectional text
escaping between markup special characters and document-safe text").  A
backslash followed by a special character is replaced by the bare character;
any other text is preserved byte-for-byte.  The source of `doc2tex/utils.py`
is not in the tree. -/
def unescape_latex : List Char → List Char
  | [] => []
  | c :: r =>
    if c = '\\' then
      match r with
      | [] => ['\\']
      | d :: r' =>
        if d ∈ latexSpecials then d :: unescape_latex r'
        else '\\' :: unescape_latex (d :: r')
    else c :: unescape_latex r

/-- Modelled from the spec: `utils.escape_latex`, the inverse direction of the
escaping utility: each special character gains a leading backslash. -/
def escape_latex : List Char → List Char
  | [] => []
  | c :: r =>
    if c ∈ latexSpecials then '\\' :: c :: escape_latex r
    else c :: escape_latex r

/-! ## Inline run tokenizer (`DocxGenerator._apply_inline`) -/

/-- The four inline patterns of `_apply_inline`, in declaration order:
`\textbf{...}`, `\textit{...}`, `\underline{...}`, `$...$`. -/
inductive PatKind
  | bold
  | italic
  | underline
  | math
deriving DecidableEq, Repr

/-- Declaration index of a pattern in the fixed pattern list. -/
def patIdx : PatKind → Nat
  | .bold => 0
  | .italic => 1
  | .underline => 2
  | .math => 3

/-- A text run appended to the paragraph: content plus formatting flags, as
set by `_apply_inline` on the python-docx run object. -/
structure Run where
  text : List Char
  bold : Bool
  italic : Bool
  underline : Bool
deriving DecidableEq, Repr

/-- Flag assignment of `_apply_inline`: each pattern sets exactly one flag;
the math pattern is rendered as italic. -/
def mkRun (k : PatKind) (t : List Char) : Run :=
  match k with
  | .bold => ⟨t, true, false, false⟩
  | .italic => ⟨t, false, true, false⟩
  | .underline => ⟨t, false, false, true⟩
  | .math => ⟨t, false, true, false⟩

/-- Command names of the three brace-delimited patterns. -/
def cmdTextbf : List Char := "\\textbf".toList

def cmdTextit : List Char := "\\textit".toList

def cmdUnderline : List Char := "\\underline".toList

/-- Try the pattern `cmd{([^}]+)}` at the current position: the command name,
an opening brace, a non-empty capture free of closing braces, a closing
brace.  Returns the capture and the remaining text. -/
def hereCap (cmd : List Char) (u : List Char) : Option (List Char × List Char) :=
  if startsWith (cmd ++ ['\x7b']) u then
    match splitAtBrace (u.drop (cmd.length + 1)) with
    | some (cap, rest) => if cap = [] then none else some (cap, rest)
    | none => none
  else none

/-- `re.search` for the pattern `cmd{([^}]+)}`: leftmost position where the
pattern matches.  Returns `(before, capture, after)`. -/
def scanCmd (cmd : List Char) : List Char → Option (List Char × List Char × List Char)
  | [] => none
  | c :: s =>
    match hereCap cmd (c :: s) with
    | some (cap, rest) => some ([], cap, rest)
    | none => (scanCmd cmd s).map (fun pr => (c :: pr.1, pr.2.1, pr.2.2))

/-- Try the pattern `$([^$]+)$` at the current position. -/
def hereMath (u : List Char) : Option (List Char × List Char) :=
  match u with
  | [] => none
  | c :: v =>
    if c = '$' then
      match splitAtDollar v with
      | some (cap, rest) => if cap = [] then none else some (cap, rest)
      | none => none
    else none

/-- `re.search` for the inline-math pattern `$([^$]+)$`. -/
def scanMath : List Char → Option (List Char × List Char × List Char)
  | [] => none
  | c :: s =>
    match hereMath (c :: s) with
    | some (cap, rest) => some ([], cap, rest)
    | none => (scanMath s).map (fun pr => (c :: pr.1, pr.2.1, pr.2.2))

/-- Leftmost match of one given pattern in the remaining text. -/
def scanOf (k : PatKind) (t : List Char) : Option (List Char × List Char × List Char) :=
  match k with
  | .bold => scanCmd cmdTextbf t
  | .italic => scanCmd cmdTextit t
  | .underline => scanCmd cmdUnderline t
  | .math => scanMath t

/-- A selected match: pattern kind, text before the match, the capture, and
the text after the full match. -/
structure Sel where
  kind : PatKind
  pre : List Char
  cap : List Char
  rest : List Char
deriving DecidableEq, Repr

/-- Tag a raw scan result with its pattern kind. -/
def asSel (k : PatKind) (o : Option (List Char × List Char × List Char)) : Option Sel :=
  o.map (fun pr => ⟨k, pr.1, pr.2.1, pr.2.2⟩)

/-- One step of the selection loop of `_apply_inline`: a candidate replaces
the current best only when its match starts strictly earlier
(`m.start() < found_m.start()`), so on ties the earlier-declared pattern
wins. -/
def better (cur cand : Option Sel) : Option Sel :=
  match cand with
  | none => cur
  | some c =>
    match cur with
    | none => some c
    | some b => if c.pre.length < b.pre.length then some c else some b

/-- The full selection pass over the four patterns, in declaration order. -/
def select (t : List Char) : Option Sel :=
  better
    (better
      (better
        (better none (asSel .bold (scanOf .bold t)))
        (asSel .italic (scanOf .italic t)))
      (asSel .underline (scanOf .underline t)))
    (asSel .math (scanOf .math t))

/-- The scanning loop of `_apply_inline`, with explicit fuel.  Each iteration
consumes at least one character of the text, so fuel equal to the text length
is always sufficient (`applyInlineF_congr` below). -/
def applyInlineF : Nat → List Char → List Run
  | 0, _ => []
  | fuel + 1, t =>
    match select t with
    | none =>
      if unescape_latex t = [] then []
      else [⟨unescape_latex t, false, false, false⟩]
    | some sel =>
      (if unescape_latex sel.pre = [] then []
       else [⟨unescape_latex sel.pre, false, false, false⟩])
        ++ [mkRun sel.kind (unescape_latex sel.cap)]
        ++ applyInlineF fuel sel.rest

/-- `DocxGenerator._apply_inline`: tokenize a text span into runs. -/
def applyInline (t : List Char) : List Run := applyInlineF t.length t

/-! ## Block classifier (`DocxGenerator._parse_and_build`) -/

/-- The block kinds distinguished by `_parse_and_build`. -/
inductive BlockKind
  | heading (level : Nat)
  | table
  | figure
  | listBlock
  | centered
  | par
deriving DecidableEq, Repr

/-- The classification chain of `_parse_and_build`: prefix checks for the
three heading commands, then containment checks, with paragraph as
fallback. -/
def classify (bk : List Char) : BlockKind :=
  if startsWith ("\\section".toList) bk then .heading 1
  else if startsWith ("\\subsection".toList) bk then .heading 2
  else if startsWith ("\\subsubsection".toList) bk then .heading 3
  else if containsSub bk ("\\begin\x7btable\x7d".toList) then .table
  else if containsSub bk ("\\begin\x7bfigure\x7d".toList) then .figure
  else if containsSub bk ("\\begin\x7bitemize\x7d".toList)
      || containsSub bk ("\\begin\x7benumerate\x7d".toList) then .listBlock
  else if containsSub bk ("\\begin\x7bcenter\x7d".toList) then .centered
  else .par

/-! ## Table reconstruction (`DocxGenerator._add_table`) -/

/-- The leftmost match of
`\begin{tabular}{[^}]+}(.*?)\end{tabular}` (DOTALL): the prefix
`\begin{tabular}{` must be followed by a non-empty brace-closed column spec
and, later, by `\end{tabular}`; the body between is returned. -/
def findTabular : List Char → Option (List Char)
  | [] => none
  | c :: s =>
    if startsWith ("\\begin\x7btabular\x7d\x7b".toList) (c :: s) then
      match splitAtBrace ((c :: s).drop 16) with
      | some (colspec, rest) =>
        if colspec = [] then findTabular s
        else
          match splitFirst ("\\end\x7btabular\x7d".toList) rest with
          | some (body, _) => some body
          | none => findTabular s
      | none => findTabular s
    else findTabular s

/-- The row filter of `_add_table`: strip the body, split on the row
separator, strip each row, drop rows that are empty, then drop rows that
start with a backslash (intended to skip `\hline`-like rules). -/
def survivingLines (body : List Char) : List (List Char) :=
  (((splitRows (pyStrip body)).map pyStrip).filter (fun r => !r.isEmpty)).filter
    (fun r => !(startsWith ("\\".toList) r))

/-- Cell contents of one row: split on `&`, strip, unescape. -/
def cellsOf (r : List Char) : List (List Char) :=
  (splitAmp r).map (fun c => unescape_latex (pyStrip c))

/-- The cell-assignment loop of `_add_table`: a Word table row of `numC`
cells initialised to the empty string, with cell `j` set from the row's
`j`-th cell when it exists (`if c_idx < num_c`). -/
def buildRow (numC : Nat) (cells : List (List Char)) : List (List Char) :=
  (List.range numC).map (fun j => cells.getD j [])

/-- `DocxGenerator._add_table`: `none` models the silent early returns (no
tabular found, or no surviving rows); otherwise the grid of cell texts of
the table added to the document. -/
def addTable (block : List Char) : Option (List (List (List Char))) :=
  match findTabular block with
  | none => none
  | some body =>
    match survivingLines body with
    | [] => none
    | first :: restRows =>
      some ((first :: restRows).map (fun r => buildRow (splitAmp first).length (cellsOf r)))

/-! ## List reconstruction (`DocxGenerator._add_list`) -/

/-- The lookahead `(?=\item|\n|\end)` of the item regex. -/
def laOk (u : List Char) : Bool :=
  startsWith ("\\item".toList) u || startsWith ['\n'] u || startsWith ("\\end".toList) u

/-- Offset of the first position (scanning forward) where the lookahead
matches; this is the lazy expansion of the `(.*?)` capture. -/
def firstLAL : List Char → Option Nat
  | [] => none
  | c :: s => if laOk (c :: s) then some 0 else (firstLAL s).map (· + 1)

/-- Length of the leading whitespace run (the maximal text `\s+` can take). -/
def wsCount (l : List Char) : Nat := (l.takeWhile isWS).length

/-- Backtracking of the greedy `\s+`: try consuming `k` whitespace characters
(largest first, as the regex engine does) and, for each `k`, the shortest
capture whose end satisfies the lookahead. -/
def tryK (w : List Char) : Nat → Option (List Char × List Char)
  | 0 => none
  | k + 1 =>
    match firstLAL (w.drop (k + 1)) with
    | some off => some ((w.drop (k + 1)).take off, (w.drop (k + 1)).drop off)
    | none => tryK w k

/-- Attempt the item pattern `\item\s+(.*?)(?=\item|\n|\end)` at the current
position: returns the capture and the text from the (zero-width) lookahead
position onwards. -/
def matchHere (u : List Char) : Option (List Char × List Char) :=
  if startsWith ("\\item".toList) u then tryK (u.drop 5) (wsCount (u.drop 5))
  else none

/-- `re.findall` for the item pattern: scan left to right, emit each
non-overlapping match's capture, resume at the match end.  Fuel equal to
the text length is sufficient since every step consumes at least one
character. -/
def findItemsAux : Nat → List Char → List (List Char)
  | 0, _ => []
  | fuel + 1, u =>
    match u with
    | [] => []
    | c :: s =>
      match matchHere (c :: s) with
      | some (cap, rest) => cap :: findItemsAux fuel rest
      | none => findItemsAux fuel s

/-- All item captures of a list block. -/
def findItems (block : List Char) : List (List Char) := findItemsAux block.length block

/-- `DocxGenerator._add_list`: numbered when the block contains the
enumerate environment; each item is stripped, tokenized by `_apply_inline`,
and appended as one list-style paragraph. -/
def addList (block : List Char) : Bool × List (List Run) :=
  (containsSub block ("\\begin\x7benumerate\x7d".toList),
   (findItems block).map (fun it => applyInline (pyStrip it)))

/-! ## Markup encoder (`LatexGenerator`) -/

/-- Paragraph alignment as exposed by the structured-document surface. -/
inductive Align
  | left
  | center
  | right
  | unset
deriving DecidableEq, Repr

/-- A styled run of a structured-document paragraph. -/
structure RunD where
  text : List Char
  bold : Bool
  italic : Bool
  underline : Bool
  link : Option (List Char)
deriving DecidableEq, Repr

/-- A structured-document paragraph: plain text, style name, runs,
alignment. -/
structure ParaD where
  text : List Char
  styleName : List Char
  runs : List RunD
  alignment : Align
deriving DecidableEq, Repr

/-- `\cmd{txt}`. -/
def wrapCmd (cmd : List Char) (txt : List Char) : List Char :=
  '\\' :: cmd ++ '\x7b' :: txt ++ ['\x7d']

/-- `LatexGenerator._handle_heading`: substring tests `"Heading N" in
style_name` route to the five sectioning commands; `\clearpage` is prepended
when the name contains `"Heading 1"` and the document class is report or
thesis. -/
def handleHeading (para : ParaD) (docType : List Char) : List Char :=
  let txt := escape_latex para.text
  let s := para.styleName
  let pre :=
    if containsSub s ("Heading 1".toList)
        ∧ (docType = ("report".toList) ∨ docType = ("thesis".toList)) then
      "\\clearpage\n".toList
    else []
  if containsSub s ("Heading 1".toList) then pre ++ wrapCmd ("section".toList) txt
  else if containsSub s ("Heading 2".toList) then wrapCmd ("subsection".toList) txt
  else if containsSub s ("Heading 3".toList) then wrapCmd ("subsubsection".toList) txt
  else if containsSub s ("Heading 4".toList) then wrapCmd ("paragraph".toList) txt
  else wrapCmd ("subparagraph".toList) txt

/-- Markup for one run of a non-heading paragraph: escape, then wrap in the
fixed order bold, italic, underline, then a hyperlink wrapper when the run
carries an address. -/
def runTex (r : RunD) : List Char :=
  let t0 := escape_latex r.text
  let t1 := if r.bold then wrapCmd ("textbf".toList) t0 else t0
  let t2 := if r.italic then wrapCmd ("textit".toList) t1 else t1
  let t3 := if r.underline then wrapCmd ("underline".toList) t2 else t2
  match r.link with
  | some addr => ("\\href\x7b".toList) ++ addr ++ '\x7d' :: '\x7b' :: t3 ++ ['\x7d']
  | none => t3

/-- `LatexGenerator._handle_paragraph`: empty-when-stripped paragraphs are
skipped; style names starting with `Heading` are routed to heading emission;
otherwise runs are emitted in order and the concatenation is wrapped in an
alignment environment for center or right alignment. -/
def handleParagraph (para : ParaD) (docType : List Char) : List Char :=
  if pyStrip para.text = [] then []
  else if startsWith ("Heading".toList) para.styleName then handleHeading para docType
  else
    let clean := (para.runs.map runTex).foldr (· ++ ·) []
    match para.alignment with
    | .center =>
      ("\\begin\x7bcenter\x7d\n".toList) ++ clean ++ ("\n\\end\x7bcenter\x7d".toList)
    | .right =>
      ("\\begin\x7bflushright\x7d\n".toList) ++ clean ++ ("\n\\end\x7bflushright\x7d".toList)
    | _ => clean

/-! ## Direction resolver & orchestrator (`DocTeXConverter`) -/

/-- Lowercase each character (Python `str.lower` restricted to the ASCII
range used by extensions). -/
def pyLower (l : List Char) : List Char := l.map Char.toLower

/-- `pathlib.Path(p).name` (POSIX): the final path component, ignoring
trailing slashes. -/
def pyName (p : List Char) : List Char :=
  (((p.reverse).dropWhile (fun c => c = '/')).takeWhile (fun c => c ≠ '/')).reverse

/-- Index of the last dot of a name, if any. -/
def lastDotIdx (n : List Char) : Option Nat :=
  let k := n.reverse.findIdx (fun c => c = '.')
  if k < n.length then some (n.length - 1 - k) else none

/-- `pathlib.Path(p).suffix`: the extension from the last dot of the final
component, provided that dot is neither the first nor the last character of
the name. -/
def pySuffix (p : List Char) : List Char :=
  let n := pyName p
  match lastDotIdx n with
  | some i => if 0 < i ∧ i < n.length - 1 then n.drop i else []
  | none => []

/-- The normalised extension computed by `_guess_direction`:
`Path(path).suffix.lower().lstrip('.')`. -/
def extOf (p : List Char) : List Char :=
  (pyLower (pySuffix p)).dropWhile (fun c => c = '.')

/-- The typed errors raised by the converter (messages omitted):
`ConversionError` and `InvalidFileFormatError` from `doc2tex/errors.py`. -/
inductive ConvError
  | conversionError
  | invalidFileFormat
deriving DecidableEq, Repr

/-- `DocTeXConverter._guess_direction`: `docx` maps to the LaTeX-producing
direction, `tex`/`latex` to the Word-producing direction, anything else
raises `InvalidFileFormatError`. -/
def guessDirection (p : List Char) : Except ConvError (List Char) :=
  if extOf p = ("docx".toList) then .ok ("to_latex".toList)
  else if extOf p = ("tex".toList) ∨ extOf p = ("latex".toList) then .ok ("to_docx".toList)
  else .error .invalidFileFormat

/-- `pathlib.Path.with_suffix`: replace the (possibly empty) suffix. -/
def pyWithSuffix (p : List Char) (newExt : List Char) : List Char :=
  p.take (p.length - (pySuffix p).length) ++ newExt

/-- `DocTeXConverter._calc_output_path`. -/
def calcOutputPath (p : List Char) (dir : List Char) : List Char :=
  pyWithSuffix p (if dir = ("to_latex".toList) then ".tex".toList else ".docx".toList)

/-- `os.path.dirname` (simplified POSIX: text before the last slash, empty
when there is none). -/
def dirName (p : List Char) : List Char :=
  if '/' ∈ p then (((p.reverse).dropWhile (fun c => c ≠ '/')).drop 1).reverse else []

/-- Modelled from the spec: `utils.is_valid_file`, the dispatch-time check
that "validates the input's extension matches the direction it is about to
run".  The source of `doc2tex/utils.py` is not in the tree. -/
def is_valid_file (p : List Char) (exts : List (List Char)) : Bool :=
  decide (extOf p ∈ exts)

/-- Observable side effects of `convert`, in order: the initial stat of the
input, the creation of the output directory, and the hand-off to a
generator (the only step that opens an output file for writing). -/
inductive Action
  | statInput
  | mkOutDir
  | dispatchGen (d : List Char)
deriving DecidableEq, Repr

/-- The environment a conversion runs against: a file-existence oracle and
the outcome of the (external, effectful) generator run, given direction,
input path and output path. -/
structure ConvEnv where
  isFile : List Char → Bool
  gen : List Char → List Char → List Char → Except ConvError (List Char)

/-- `DocTeXConverter.convert`: existence check, direction resolution (forced
override or extension inference), output-path derivation, output-directory
creation, extension/direction validation, then generator dispatch.  Returns
the emitted actions together with the result. -/
def convert (env : ConvEnv) (input : List Char) (output : Option (List Char))
    (forced : Option (List Char)) : List Action × Except ConvError (List Char) :=
  if env.isFile input = false then ([], .error .conversionError)
  else
    let dirE : Except ConvError (List Char) :=
      match forced with
      | some d => .ok d
      | none => guessDirection input
    match dirE with
    | .error e => ([.statInput], .error e)
    | .ok dir =>
      let out := output.getD (calcOutputPath input dir)
      let tr := [Action.statInput] ++ (if dirName out = [] then [] else [Action.mkOutDir])
      if dir = ("to_latex".toList) then
        if is_valid_file input [("docx".toList)] then
          (tr ++ [Action.dispatchGen dir], env.gen dir input out)
        else (tr, .error .invalidFileFormat)
      else if dir = ("to_docx".toList) then
        if is_valid_file input [("tex".toList), ("latex".toList)] then
          (tr ++ [Action.dispatchGen dir], env.gen dir input out)
        else (tr, .error .invalidFileFormat)
      else (tr, .error .conversionError)

/-- `pathlib.Path(p).stem`. -/
def pyStem (p : List Char) : List Char :=
  let n := pyName p
  n.take (n.length - (pySuffix p).length)

/-- `os.path.join` for one directory and one file name. -/
def joinPath (d f : List Char) : List Char := d ++ '/' :: f

/-- The body of one iteration of `DocTeXConverter.batch`: with a target
directory, the direction is guessed again to pick the extension and the
target path is derived; then `convert` runs.  Any error escapes to the
per-item handler. -/
def batchTry (env : ConvEnv) (f : List Char) (outDir : Option (List Char)) :
    Except ConvError (List Char) :=
  match outDir with
  | some d =>
    match guessDirection f with
    | .error e => .error e
    | .ok dir =>
      let ext := if dir = ("to_latex".toList) then ".tex".toList else ".docx".toList
      (convert env f (some (joinPath d (pyStem f ++ ext))) none).2
  | none => (convert env f none none).2

/-- The per-item exception handler of `batch`: a raised error becomes
`None`. -/
def exceptOpt : Except ConvError (List Char) → Option (List Char)
  | .ok p => some p
  | .error _ => none

/-- `DocTeXConverter.batch`: sequential conversion with per-item failure
isolation. -/
def batch (env : ConvEnv) (files : List (List Char)) (outDir : Option (List Char)) :
    List (Option (List Char)) :=
  match files with
  | [] => []
  | f :: rest => exceptOpt (batchTry env f outDir) :: batch env rest outDir

/-! ## General-purpose lemmas -/

theorem startsWith_exists_append {l₁ l₂ : List Char} (h : startsWith l₁ l₂ = true) :
    ∃ t, l₂ = l₁ ++ t := by
  induction l₁ generalizing l₂ with
  | nil => exact ⟨l₂, rfl⟩
  | cons a as ih =>
    cases l₂ with
    | nil => simp [startsWith] at h
    | cons b bs =>
      simp only [startsWith, Bool.and_eq_true, beq_iff_eq] at h
      obtain ⟨rfl, h2⟩ := h
      obtain ⟨t, rfl⟩ := ih h2
      exact ⟨t, rfl⟩

theorem startsWith_append_self (l₁ t : List Char) : startsWith l₁ (l₁ ++ t) = true := by
  induction l₁ with
  | nil => rfl
  | cons a as ih => simp [startsWith, ih]

theorem splitAtBrace_eq {u a b : List Char} (h : splitAtBrace u = some (a, b)) :
    u = a ++ '\x7d' :: b ∧ '\x7d' ∉ a := by
  induction u generalizing a b with
  | nil => cases h
  | cons c r ih =>
    simp only [splitAtBrace] at h
    split at h
    · rename_i hc
      cases h
      exact ⟨by simp [hc], by simp⟩
    · rename_i hc
      cases hsp : splitAtBrace r with
      | none => rw [hsp] at h; cases h
      | some ab =>
        obtain ⟨a', b'⟩ := ab
        rw [hsp] at h
        cases h
        obtain ⟨he, hm⟩ := ih hsp
        refine ⟨by rw [List.cons_append, ← he], ?_⟩
        simp only [List.mem_cons, not_or]
        exact ⟨fun hx => hc hx.symm, hm⟩

theorem splitAtBrace_append {a b : List Char} (hnb : '\x7d' ∉ a) :
    splitAtBrace (a ++ '\x7d' :: b) = some (a, b) := by
  induction a with
  | nil => rfl
  | cons c a' ih =>
    have hc : c ≠ '\x7d' := by intro hc; exact hnb (by simp [hc])
    have ha' : '\x7d' ∉ a' := fun hx => hnb (by simp [hx])
    simp [List.cons_append, splitAtBrace, if_neg hc, ih ha']

theorem splitAtDollar_eq {u a b : List Char} (h : splitAtDollar u = some (a, b)) :
    u = a ++ '$' :: b ∧ '$' ∉ a := by
  induction u generalizing a b with
  | nil => cases h
  | cons c r ih =>
    simp only [splitAtDollar] at h
    split at h
    · rename_i hc
      cases h
      exact ⟨by simp [hc], by simp⟩
    · rename_i hc
      cases hsp : splitAtDollar r with
      | none => rw [hsp] at h; cases h
      | some ab =>
        obtain ⟨a', b'⟩ := ab
        rw [hsp] at h
        cases h
        obtain ⟨he, hm⟩ := ih hsp
        refine ⟨by rw [List.cons_append, ← he], ?_⟩
        simp only [List.mem_cons, not_or]
        exact ⟨fun hx => hc hx.symm, hm⟩

theorem hereCap_eq_some {cmd u cap rest : List Char} (h : hereCap cmd u = some (cap, rest)) :
    u = cmd ++ '\x7b' :: (cap ++ '\x7d' :: rest) ∧ cap ≠ [] := by
  unfold hereCap at h
  split at h
  · rename_i hpre
    obtain ⟨t, ht⟩ := startsWith_exists_append hpre
    have hdrop : u.drop (cmd.length + 1) = t := by
      rw [ht, show cmd.length + 1 = (cmd ++ ['\x7b']).length by simp, List.drop_left]
    rw [hdrop] at h
    cases hsp : splitAtBrace t with
    | none => rw [hsp] at h; cases h
    | some ab =>
      obtain ⟨a', b'⟩ := ab
      simp only [hsp] at h
      by_cases hnil : a' = []
      · rw [if_pos hnil] at h; cases h
      · rw [if_neg hnil] at h
        cases h
        obtain ⟨he, _⟩ := splitAtBrace_eq hsp
        refine ⟨?_, hnil⟩
        rw [ht, he]
        simp
  · cases h

theorem hereCap_append {cmd cap rest : List Char} (hcap : cap ≠ []) (hnb : '\x7d' ∉ cap) :
    hereCap cmd (cmd ++ '\x7b' :: (cap ++ '\x7d' :: rest)) = some (cap, rest) := by
  have hshape : cmd ++ '\x7b' :: (cap ++ '\x7d' :: rest)
      = (cmd ++ ['\x7b']) ++ (cap ++ '\x7d' :: rest) := by simp
  unfold hereCap
  rw [if_pos (by rw [hshape]; exact startsWith_append_self _ _)]
  rw [show (cmd ++ '\x7b' :: (cap ++ '\x7d' :: rest)).drop (cmd.length + 1)
      = cap ++ '\x7d' :: rest by
    rw [hshape, show cmd.length + 1 = (cmd ++ ['\x7b']).length by simp, List.drop_left]]
  simp only [splitAtBrace_append hnb, if_neg hcap]

theorem hereCap_none_head {cmdT : List Char} {c : Char} {u : List Char} (h : c ≠ '\\') :
    hereCap ('\\' :: cmdT) (c :: u) = none := by
  unfold hereCap
  rw [if_neg]
  intro hsw
  rw [show ('\\' :: cmdT) ++ ['\x7b'] = '\\' :: (cmdT ++ ['\x7b']) from rfl] at hsw
  simp only [startsWith, Bool.and_eq_true, beq_iff_eq] at hsw
  exact h hsw.1.symm

theorem scanCmd_decomp {cmd s p cp r : List Char} (h : scanCmd cmd s = some (p, cp, r)) :
    s = p ++ cmd ++ '\x7b' :: (cp ++ '\x7d' :: r) ∧ cp ≠ [] := by
  induction s generalizing p with
  | nil => cases h
  | cons c s' ih =>
    simp only [scanCmd] at h
    cases hh : hereCap cmd (c :: s') with
    | some capRest =>
      obtain ⟨cap, rest⟩ := capRest
      rw [hh] at h
      cases h
      obtain ⟨hu, hcap⟩ := hereCap_eq_some hh
      exact ⟨by rw [hu]; simp, hcap⟩
    | none =>
      rw [hh] at h
      cases hsc : scanCmd cmd s' with
      | none => rw [hsc] at h; cases h
      | some pr =>
        obtain ⟨p', cp', r'⟩ := pr
        simp only [hsc, Option.map_some'] at h
        cases h
        obtain ⟨he, hc⟩ := ih hsc
        exact ⟨by simp [he], hc⟩

theorem hereMath_eq_some {u cap rest : List Char} (h : hereMath u = some (cap, rest)) :
    u = '$' :: (cap ++ '$' :: rest) ∧ cap ≠ [] := by
  cases u with
  | nil => cases h
  | cons c v =>
    simp only [hereMath] at h
    split at h
    · rename_i hc
      cases hsp : splitAtDollar v with
      | none => rw [hsp] at h; cases h
      | some ab =>
        obtain ⟨a', b'⟩ := ab
        simp only [hsp] at h
        by_cases hnil : a' = []
        · rw [if_pos hnil] at h; cases h
        · rw [if_neg hnil] at h
          cases h
          obtain ⟨he, _⟩ := splitAtDollar_eq hsp
          exact ⟨by rw [hc, he], hnil⟩
    · cases h

theorem hereMath_none_head {c : Char} {u : List Char} (h : c ≠ '$') :
    hereMath (c :: u) = none := by
  simp only [hereMath, if_neg h]

theorem scanMath_decomp {s p cp r : List Char} (h : scanMath s = some (p, cp, r)) :
    s = p ++ '$' :: (cp ++ '$' :: r) ∧ cp ≠ [] := by
  induction s generalizing p with
  | nil => cases h
  | cons c s' ih =>
    simp only [scanMath] at h
    cases hh : hereMath (c :: s') with
    | some capRest =>
      obtain ⟨cap, rest⟩ := capRest
      rw [hh] at h
      cases h
      obtain ⟨hu, hcap⟩ := hereMath_eq_some hh
      exact ⟨by rw [hu]; rfl, hcap⟩
    | none =>
      rw [hh] at h
      cases hsc : scanMath s' with
      | none => rw [hsc] at h; cases h
      | some pr =>
        obtain ⟨p', cp', r'⟩ := pr
        simp only [hsc, Option.map_some'] at h
        cases h
        obtain ⟨he, hc⟩ := ih hsc
        exact ⟨by simp [he], hc⟩

theorem scanCmd_none_bs {cmdT s : List Char} (h : ∀ c ∈ s, c ≠ '\\') :
    scanCmd ('\\' :: cmdT) s = none := by
  induction s with
  | nil => rfl
  | cons c s' ih =>
    have hc : c ≠ '\\' := h c (by simp)
    have hs' : ∀ x ∈ s', x ≠ '\\' := fun x hx => h x (by simp [hx])
    simp only [scanCmd, hereCap_none_head hc, ih hs', Option.map_none']

theorem scanMath_none_dollar {s : List Char} (h : ∀ c ∈ s, c ≠ '$') :
    scanMath s = none := by
  induction s with
  | nil => rfl
  | cons c s' ih =>
    have hc : c ≠ '$' := h c (by simp)
    have hs' : ∀ x ∈ s', x ≠ '$' := fun x hx => h x (by simp [hx])
    simp only [scanMath, hereMath_none_head hc, ih hs', Option.map_none']

theorem scanCmd_append_left {cmdT pre s : List Char} (hpre : ∀ c ∈ pre, c ≠ '\\') :
    scanCmd ('\\' :: cmdT) (pre ++ s)
      = (scanCmd ('\\' :: cmdT) s).map (fun pr => (pre ++ pr.1, pr.2.1, pr.2.2)) := by
  induction pre with
  | nil =>
    rw [List.nil_append]
    cases scanCmd ('\\' :: cmdT) s with
    | none => rfl
    | some pr => rfl
  | cons c pre' ih =>
    have hc : c ≠ '\\' := hpre c (by simp)
    have hpre' : ∀ x ∈ pre', x ≠ '\\' := fun x hx => hpre x (by simp [hx])
    rw [List.cons_append]
    simp only [scanCmd, hereCap_none_head hc, ih hpre']
    cases scanCmd ('\\' :: cmdT) s with
    | none => rfl
    | some pr => rfl

theorem scanCmd_cons_here {cmd : List Char} {c : Char} {s cap rest : List Char}
    (h : hereCap cmd (c :: s) = some (cap, rest)) :
    scanCmd cmd (c :: s) = some ([], cap, rest) := by
  simp only [scanCmd, h]

theorem better_eq_some {a b : Option Sel} {x : Sel} (h : better a b = some x) :
    a = some x ∨ b = some x := by
  cases b with
  | none => exact .inl h
  | some c =>
    cases a with
    | none => exact .inr h
    | some bb =>
      simp only [better] at h
      by_cases hlt : c.pre.length < bb.pre.length
      · rw [if_pos hlt] at h
        exact .inr h
      · rw [if_neg hlt] at h
        exact .inl h

theorem better_keep {b : Sel} {o : Option (List Char × List Char × List Char)} {k : PatKind}
    (hb : ∀ p cp r, o = some (p, cp, r) → b.pre.length ≤ p.length) :
    better (some b) (asSel k o) = some b := by
  cases o with
  | none => rfl
  | some pr =>
    obtain ⟨p, cp, r⟩ := pr
    have hle := hb p cp r rfl
    simp only [asSel, Option.map_some', better]
    rw [if_neg (by simp; omega)]

theorem asSel_eq_some {k : PatKind} {o : Option (List Char × List Char × List Char)} {x : Sel}
    (h : asSel k o = some x) :
    x.kind = k ∧ o = some (x.pre, x.cap, x.rest) := by
  cases o with
  | none => cases h
  | some pr =>
    obtain ⟨p, cp, r⟩ := pr
    simp only [asSel, Option.map_some'] at h
    cases h
    exact ⟨rfl, rfl⟩

theorem select_eq_some_scan {t : List Char} {sel : Sel} (h : select t = some sel) :
    scanOf sel.kind t = some (sel.pre, sel.cap, sel.rest) := by
  unfold select at h
  rcases better_eq_some h with h1 | h4
  · rcases better_eq_some h1 with h2 | h3
    · rcases better_eq_some h2 with h5 | h6
      · rcases better_eq_some h5 with h7 | h8
        · cases h7
        · obtain ⟨hk, ho⟩ := asSel_eq_some h8
          rw [hk]; exact ho
      · obtain ⟨hk, ho⟩ := asSel_eq_some h6
        rw [hk]; exact ho
    · obtain ⟨hk, ho⟩ := asSel_eq_some h3
      rw [hk]; exact ho
  · obtain ⟨hk, ho⟩ := asSel_eq_some h4
    rw [hk]; exact ho

theorem select_rest_lt {t : List Char} {sel : Sel} (h : select t = some sel) :
    sel.rest.length < t.length := by
  have hsc := select_eq_some_scan h
  cases hk : sel.kind <;> rw [hk] at hsc <;> simp only [scanOf] at hsc
  · obtain ⟨he, _⟩ := scanCmd_decomp hsc
    rw [he]; simp [cmdTextbf]; omega
  · obtain ⟨he, _⟩ := scanCmd_decomp hsc
    rw [he]; simp [cmdTextit]; omega
  · obtain ⟨he, _⟩ := scanCmd_decomp hsc
    rw [he]; simp [cmdUnderline]; omega
  · obtain ⟨he, _⟩ := scanMath_decomp hsc
    rw [he]; simp; omega

theorem applyInlineF_nil (f : Nat) : applyInlineF f [] = [] := by
  cases f with
  | zero => rfl
  | succ f' => rfl

theorem applyInlineF_congr (f₁ f₂ : Nat) (t : List Char)
    (h1 : t.length ≤ f₁) (h2 : t.length ≤ f₂) :
    applyInlineF f₁ t = applyInlineF f₂ t := by
  induction f₁ using Nat.strong_induction_on generalizing f₂ t with
  | _ f₁ ih =>
    cases t with
    | nil => rw [applyInlineF_nil, applyInlineF_nil]
    | cons c s =>
      cases f₁ with
      | zero => simp at h1
      | succ f₁' =>
        cases f₂ with
        | zero => simp at h2
        | succ f₂' =>
          cases hsel : select (c :: s) with
          | none => simp only [applyInlineF, hsel]
          | some sel =>
            have hlt := select_rest_lt hsel
            simp only [List.length_cons] at hlt h1 h2
            have e1 : applyInlineF f₁' sel.rest = applyInlineF f₂' sel.rest :=
              ih f₁' (by omega) f₂' sel.rest (by omega) (by omega)
            simp only [applyInlineF, hsel, e1]

theorem applyInline_of_select_none {t : List Char} (h : select t = none) :
    applyInline t =
      if unescape_latex t = [] then []
      else [⟨unescape_latex t, false, false, false⟩] := by
  cases t with
  | nil => rfl
  | cons c s =>
    show applyInlineF (c :: s).length (c :: s) = _
    rw [show (c :: s).length = s.length + 1 from rfl]
    simp only [applyInlineF, h]

theorem applyInline_of_select_some {t : List Char} {sel : Sel} (h : select t = some sel) :
    applyInline t =
      (if unescape_latex sel.pre = [] then []
       else [⟨unescape_latex sel.pre, false, false, false⟩])
        ++ [mkRun sel.kind (unescape_latex sel.cap)] ++ applyInline sel.rest := by
  cases t with
  | nil =>
    rw [show select ([] : List Char) = none from rfl] at h
    cases h
  | cons c s =>
    have hlt := select_rest_lt h
    simp only [List.length_cons] at hlt
    show applyInlineF (c :: s).length (c :: s) = _
    rw [show (c :: s).length = s.length + 1 from rfl]
    simp only [applyInlineF, h]
    rw [applyInlineF_congr s.length sel.rest.length sel.rest (by omega) (le_refl _)]
    rfl

theorem unescape_cons_ne {c : Char} {r : List Char} (h : c ≠ '\\') :
    unescape_latex (c :: r) = c :: unescape_latex r := by
  conv_lhs => rw [unescape_latex.eq_def]
  simp only [if_neg h]

theorem unescape_bs_cons {d : Char} {r : List Char} (hd : d ∉ latexSpecials) :
    unescape_latex ('\\' :: d :: r) = '\\' :: unescape_latex (d :: r) := by
  conv_lhs => rw [unescape_latex.eq_def]
  simp [hd]

theorem unescape_no_bs {l : List Char} (h : ∀ c ∈ l, c ≠ '\\') :
    unescape_latex l = l := by
  induction l with
  | nil => rfl
  | cons c r ih =>
    rw [unescape_cons_ne (h c (by simp)), ih (fun x hx => h x (by simp [hx]))]

theorem scanCmd_exact {cmdT cap rest : List Char} (hcap : cap ≠ []) (hnb : '\x7d' ∉ cap) :
    scanCmd ('\\' :: cmdT) (('\\' :: cmdT) ++ '\x7b' :: (cap ++ '\x7d' :: rest))
      = some ([], cap, rest) := by
  have hu : ('\\' :: cmdT) ++ '\x7b' :: (cap ++ '\x7d' :: rest)
      = '\\' :: (cmdT ++ '\x7b' :: (cap ++ '\x7d' :: rest)) := rfl
  rw [hu]
  exact scanCmd_cons_here (by rw [← hu]; exact hereCap_append hcap hnb)

theorem scanCmd_pre_exact {cmdT pre cap rest : List Char}
    (hpre : ∀ c ∈ pre, c ≠ '\\') (hcap : cap ≠ []) (hnb : '\x7d' ∉ cap) :
    scanCmd ('\\' :: cmdT) (pre ++ (('\\' :: cmdT) ++ '\x7b' :: (cap ++ '\x7d' :: rest)))
      = some (pre, cap, rest) := by
  rw [scanCmd_append_left hpre, scanCmd_exact hcap hnb]
  simp

theorem scanCmd_bs_lower {cmdT pre s p cp r : List Char}
    (hpre : ∀ c ∈ pre, c ≠ '\\')
    (h : scanCmd ('\\' :: cmdT) (pre ++ s) = some (p, cp, r)) :
    pre.length ≤ p.length := by
  obtain ⟨he, _⟩ := scanCmd_decomp h
  have he' : pre ++ s = p ++ '\\' :: (cmdT ++ '\x7b' :: (cp ++ '\x7d' :: r)) := by
    rw [he]; simp
  by_contra hlt
  push_neg at hlt
  have h1 : (pre ++ s)[p.length]? = some '\\' := by
    rw [he', List.getElem?_append_right (le_refl _)]
    simp
  rw [List.getElem?_append_left hlt] at h1
  have hmem : '\\' ∈ pre := List.getElem?_mem h1
  exact (hpre '\\' hmem) rfl

/-! ## Claim theorems -/

/-- C3: a markup block whose first command is the subsubsection keyword is
classified at heading depth 3 — never 1 or 2 — even though the block's text
contains the depth-1 and depth-2 keywords as substrings. -/
theorem classify_subsubsection_depth3 (bk : List Char)
    (h : startsWith ("\\subsubsection".toList) bk = true) :
    classify bk = .heading 3
      ∧ containsSub bk ("section".toList) = true
      ∧ containsSub bk ("subsection".toList) = true := by
  obtain ⟨t, rfl⟩ := startsWith_exists_append h
  exact ⟨rfl, rfl, rfl⟩

/-- Witness for C3 at a concrete block. -/
theorem classify_subsubsection_depth3_witness :
    classify ("\\subsubsection\x7bIntro\x7d".toList) = .heading 3 :=
  (classify_subsubsection_depth3 ("\\subsubsection\x7bIntro\x7d".toList) (by decide)).1

/-- C10: direction inference depends only on the lowercased extension: two
paths whose suffixes agree after lowercasing resolve to the same direction
or fail with the same error. -/
theorem guessDirection_case_insensitive (p q : List Char)
    (h : pyLower (pySuffix p) = pyLower (pySuffix q)) :
    guessDirection p = guessDirection q := by
  simp only [guessDirection, extOf, h]

/-- Witness for C10: `.DOCX` and `.docx` resolve identically. -/
theorem guessDirection_case_insensitive_witness :
    guessDirection ("report.DOCX".toList) = guessDirection ("report.docx".toList) :=
  guessDirection_case_insensitive ("report.DOCX".toList) ("report.docx".toList) (by decide)

/-- C7: with no override, a `docx` extension resolves to the markup-producing
direction and `tex`/`latex` to the document-producing direction; any other
extension makes `convert` fail with the unsupported-format error having
emitted no output-directory creation and no generator dispatch, i.e. before
any output file is opened for writing. -/
theorem guessDirection_extension_spec (p : List Char) (env : ConvEnv) :
    (extOf p = ("docx".toList) → guessDirection p = .ok ("to_latex".toList))
    ∧ (extOf p = ("tex".toList) ∨ extOf p = ("latex".toList) →
        guessDirection p = .ok ("to_docx".toList))
    ∧ (extOf p ≠ ("docx".toList) → extOf p ≠ ("tex".toList) → extOf p ≠ ("latex".toList) →
        guessDirection p = .error .invalidFileFormat
        ∧ (env.isFile p = true →
            convert env p none none = ([Action.statInput], .error .invalidFileFormat))) := by
  refine ⟨?_, ?_, ?_⟩
  · intro h
    simp only [guessDirection, if_pos h]
  · intro h
    have hd : extOf p ≠ ("docx".toList) := by
      rcases h with h | h <;> rw [h] <;> decide
    simp only [guessDirection, if_neg hd, if_pos h]
  · intro h1 h2 h3
    have hg : guessDirection p = .error .invalidFileFormat := by
      simp only [guessDirection, if_neg h1]
      rw [if_neg]
      rintro (h | h) <;> [exact h2 h; exact h3 h]
    refine ⟨hg, fun hf => ?_⟩
    simp only [convert, hf, Bool.true_eq_false, if_neg (by simp : ¬False), hg]

/-- Witness for C7: `report.docx` resolves to the markup direction and
`report.pdf` fails before dispatch. -/
theorem guessDirection_extension_spec_witness :
    guessDirection ("report.docx".toList) = .ok ("to_latex".toList)
    ∧ convert ⟨fun _ => true, fun _ _ o => .ok o⟩ ("report.pdf".toList) none none
        = ([Action.statInput], .error .invalidFileFormat) :=
  ⟨(guessDirection_extension_spec ("report.docx".toList)
      ⟨fun _ => true, fun _ _ o => .ok o⟩).1 (by decide),
   ((guessDirection_extension_spec ("report.pdf".toList)
      ⟨fun _ => true, fun _ _ o => .ok o⟩).2.2 (by decide) (by decide) (by decide)).2 rfl⟩

/-- C9 counterexample: a paragraph styled `Heading 10` — a depth greater
than 4, which the claim says must map to the fifth catch-all command — is
routed by the substring test `"Heading 1" in style_name` to the top-level
command, page break included. -/
theorem handleParagraph_heading10_cex :
    handleParagraph ⟨("T".toList), ("Heading 10".toList), [], .unset⟩ ("report".toList)
      = ("\\clearpage\n\\section\x7bT\x7d".toList) := by decide

/-- C9 amended: for style depths 1 through 9 the encoder maps depth 1 to the
top-level command (with a page break exactly when the document class is
report or thesis), 2/3/4 to the next three levels, and depths 5–9 to the
catch-all command; depths of 10 and beyond are instead matched by substring
containment (e.g. `Heading 10` maps to the top-level command). -/
theorem handleHeading_depth_map (txt docType : List Char) (d : Nat)
    (h1 : 1 ≤ d) (h9 : d ≤ 9) :
    handleHeading ⟨txt, ("Heading ".toList) ++ (Nat.repr d).toList, [], .unset⟩ docType =
      (if d = 1 then
        (if docType = ("report".toList) ∨ docType = ("thesis".toList)
         then ("\\clearpage\n".toList) else [])
          ++ wrapCmd ("section".toList) (escape_latex txt)
       else if d = 2 then wrapCmd ("subsection".toList) (escape_latex txt)
       else if d = 3 then wrapCmd ("subsubsection".toList) (escape_latex txt)
       else if d = 4 then wrapCmd ("paragraph".toList) (escape_latex txt)
       else wrapCmd ("subparagraph".toList) (escape_latex txt)) := by
  interval_cases d
  · have hc : containsSub (("Heading ".toList) ++ ((Nat.repr 1).toList))
        ("Heading 1".toList) = true := by decide
    simp only [handleHeading, hc, eq_self_iff_true, true_and, if_true]
  all_goals rfl

/-- Witness for C9 amended at depth 5. -/
theorem handleHeading_depth_map_witness :
    handleHeading ⟨("Results".toList), ("Heading ".toList) ++ (Nat.repr 5).toList, [], .unset⟩
        ("report".toList)
      = ("\\subparagraph\x7bResults\x7d".toList) :=
  (handleHeading_depth_map ("Results".toList) ("report".toList) 5
    (by decide) (by decide)).trans (by decide)

/-- C5 counterexample: in a two-row tabular whose first data row begins with
a formatting command, the row filter discards that row even though it
contains cell data — only the second row survives and contributes cells. -/
theorem addTable_drops_command_row_cex :
    findTabular
        ("\\begin\x7btabular\x7d\x7bcc\x7d\\textbf\x7bA\x7d & B \\\\ C & D\\end\x7btabular\x7d".toList)
      = some ("\\textbf\x7bA\x7d & B \\\\ C & D".toList)
    ∧ survivingLines ("\\textbf\x7bA\x7d & B \\\\ C & D".toList) = [("C & D".toList)]
    ∧ addTable
        ("\\begin\x7btabular\x7d\x7bcc\x7d\\textbf\x7bA\x7d & B \\\\ C & D\\end\x7btabular\x7d".toList)
      = some [[("C".toList), ("D".toList)]] :=
  ⟨by decide, by decide, by decide⟩

/-- C5 amended: after splitting the tabular body on the row-separator token,
a row survives exactly when its trimmed text is non-empty and does not begin
with a backslash — this discards rule/divider-only rows, but it also
discards any data row whose first token is a command. -/
theorem survivingLines_mem_iff (body r : List Char) :
    r ∈ survivingLines body ↔
      ((∃ raw, raw ∈ splitRows (pyStrip body) ∧ pyStrip raw = r)
        ∧ r ≠ [] ∧ startsWith ("\\".toList) r = false) := by
  simp only [survivingLines, List.mem_filter, List.mem_map, Bool.not_eq_true']
  constructor
  · rintro ⟨⟨⟨raw, hraw, rfl⟩, hne⟩, hbs⟩
    exact ⟨⟨raw, hraw, rfl⟩, by simpa using hne, hbs⟩
  · rintro ⟨⟨raw, hraw, rfl⟩, hne, hbs⟩
    exact ⟨⟨⟨raw, hraw, rfl⟩, by simpa using hne⟩, hbs⟩

/-- Witness for C5 amended: the surviving row of the counterexample table is
characterised by the amended condition. -/
theorem survivingLines_mem_iff_witness :
    ("C & D".toList) ∈ survivingLines ("\\textbf\x7bA\x7d & B \\\\ C & D".toList) :=
  (survivingLines_mem_iff ("\\textbf\x7bA\x7d & B \\\\ C & D".toList) ("C & D".toList)).mpr
    ⟨⟨(" C & D".toList), by decide, by decide⟩, by decide, by decide⟩

/-- C8: batch conversion returns a list of the same length as its input,
position-aligned: entry `i` is the resolved output path when item `i`
converts successfully and `none` when it fails; each entry depends only on
its own input, so one item's failure cannot prevent conversion of the
others. -/
theorem batch_position_aligned (env : ConvEnv) (files : List (List Char))
    (outDir : Option (List Char)) :
    (batch env files outDir).length = files.length
    ∧ ∀ i, i < files.length →
        (batch env files outDir).getD i none
          = exceptOpt (batchTry env (files.getD i []) outDir) := by
  induction files with
  | nil => exact ⟨rfl, fun i hi => absurd hi (by simp)⟩
  | cons f rest ih =>
    refine ⟨by simp only [batch, List.length_cons, ih.1], ?_⟩
    intro i hi
    cases i with
    | zero => rfl
    | succ j =>
      have hj : j < rest.length := by simpa using hi
      simpa only [batch, List.getD_cons_succ] using ih.2 j hj

/-- Witness for C8: converting `[a.tex, missing.docx, b.tex]` against an
environment where only the two `.tex` files exist yields
`[some a.docx, none, some b.docx]`. -/
theorem batch_position_aligned_witness :
    (batch ⟨fun p => p == ("a.tex".toList) || p == ("b.tex".toList), fun _ _ o => .ok o⟩
        [("a.tex".toList), ("missing.docx".toList), ("b.tex".toList)] none).length = 3
    ∧ (batch ⟨fun p => p == ("a.tex".toList) || p == ("b.tex".toList), fun _ _ o => .ok o⟩
        [("a.tex".toList), ("missing.docx".toList), ("b.tex".toList)] none).getD 0 none
      = some ("a.docx".toList)
    ∧ (batch ⟨fun p => p == ("a.tex".toList) || p == ("b.tex".toList), fun _ _ o => .ok o⟩
        [("a.tex".toList), ("missing.docx".toList), ("b.tex".toList)] none).getD 1 none
      = none
    ∧ (batch ⟨fun p => p == ("a.tex".toList) || p == ("b.tex".toList), fun _ _ o => .ok o⟩
        [("a.tex".toList), ("missing.docx".toList), ("b.tex".toList)] none).getD 2 none
      = some ("b.docx".toList) := by
  have h := batch_position_aligned
    ⟨fun p => p == ("a.tex".toList) || p == ("b.tex".toList), fun _ _ o => .ok o⟩
    [("a.tex".toList), ("missing.docx".toList), ("b.tex".toList)] none
  exact ⟨h.1.trans (by decide),
    (h.2 0 (by decide)).trans (by decide),
    (h.2 1 (by decide)).trans (by decide),
    (h.2 2 (by decide)).trans (by decide)⟩

/-- C4: for every decoded table the column count is fixed at the first
surviving row's cell count: every emitted row has exactly that many cells,
cell `(i, j)` carries the row's `j`-th cell text — the `getD` default `[]`
makes a missing cell blank and the row-length bound drops extra cells — and
a table with zero surviving rows produces no output (and, the embedding
being total, never raises). -/
theorem addTable_shape (block body : List Char) (hf : findTabular block = some body) :
    (survivingLines body = [] → addTable block = none)
    ∧ ∀ g, addTable block = some g →
        g.length = (survivingLines body).length
        ∧ (∀ row, row ∈ g → row.length = (splitAmp ((survivingLines body).getD 0 [])).length)
        ∧ ∀ i j, i < g.length → j < (splitAmp ((survivingLines body).getD 0 [])).length →
            (g.getD i []).getD j []
              = (cellsOf ((survivingLines body).getD i [])).getD j [] := by
  have ha : addTable block =
      (match survivingLines body with
        | [] => none
        | first :: restRows =>
          some ((first :: restRows).map (fun r => buildRow (splitAmp first).length (cellsOf r)))) := by
    simp only [addTable, hf]
  cases hs : survivingLines body with
  | nil =>
    rw [hs] at ha
    refine ⟨fun _ => ha, fun g hg => ?_⟩
    rw [ha] at hg
    cases hg
  | cons first restRows =>
    rw [hs] at ha
    refine ⟨fun h => (List.cons_ne_nil first restRows h).elim, ?_⟩
    intro g hg
    rw [ha] at hg
    obtain rfl : (first :: restRows).map (fun r => buildRow (splitAmp first).length (cellsOf r)) = g :=
      Option.some.inj hg
    have hget0 : (first :: restRows).getD 0 [] = first := rfl
    refine ⟨by simp, ?_, ?_⟩
    · intro row hrow
      rw [List.mem_map] at hrow
      obtain ⟨r, _, rfl⟩ := hrow
      simp [buildRow, hget0]
    · intro i j hi hj
      have hi' : i < (first :: restRows).length := by simpa using hi
      have hmap : ((first :: restRows).map
            (fun r => buildRow (splitAmp first).length (cellsOf r))).getD i []
          = buildRow (splitAmp first).length (cellsOf ((first :: restRows).getD i [])) := by
        rw [List.getD_eq_getElem?_getD, List.getElem?_map, List.getElem?_eq_getElem hi',
          List.getD_eq_getElem?_getD, List.getElem?_eq_getElem hi']
        rfl
      rw [hmap]
      rw [hget0] at hj
      have hrange : (List.range (splitAmp first).length)[j]? = some j :=
        List.getElem?_range (by simpa using hj)
      simp only [buildRow, List.getD_eq_getElem?_getD, List.getElem?_map, hrange, hget0]
      rfl

/-- Witness for C4: a 2-row table whose first row has 3 cells and whose
second row has 1 cell decodes to a 3-column grid with the missing cells
blank, and a table whose rows are all rules decodes to nothing. -/
theorem addTable_shape_witness :
    addTable ("\\begin\x7btabular\x7d\x7bccc\x7d A & B & X \\\\ C \\end\x7btabular\x7d".toList)
      = some [[("A".toList), ("B".toList), ("X".toList)], [("C".toList), [], []]]
    ∧ [[("A".toList), ("B".toList), ("X".toList)], [("C".toList), [], []]].length
      = (survivingLines (" A & B & X \\\\ C ".toList)).length
    ∧ ([[("A".toList), ("B".toList), ("X".toList)], [("C".toList), [], []]].getD 1 []).getD 2 []
      = ([] : List Char)
    ∧ addTable ("\\begin\x7btabular\x7d\x7bcc\x7d \\hline \\end\x7btabular\x7d".toList) = none := by
  have h := addTable_shape
    ("\\begin\x7btabular\x7d\x7bccc\x7d A & B & X \\\\ C \\end\x7btabular\x7d".toList)
    (" A & B & X \\\\ C ".toList) (by decide)
  have hg : addTable ("\\begin\x7btabular\x7d\x7bccc\x7d A & B & X \\\\ C \\end\x7btabular\x7d".toList)
      = some [[("A".toList), ("B".toList), ("X".toList)], [("C".toList), [], []]] := by decide
  refine ⟨hg, (h.2 _ hg).1, ?_, ?_⟩
  · exact ((h.2 _ hg).2.2 1 2 (by decide) (by decide)).trans (by decide)
  · exact (addTable_shape ("\\begin\x7btabular\x7d\x7bcc\x7d \\hline \\end\x7btabular\x7d".toList)
      (" \\hline ".toList) (by decide)).1 (by decide)

/-- C2: whenever the selection pass of `_apply_inline` picks a match for the
cursor position, that match is its own pattern's leftmost match, it starts
no later than every other pattern's leftmost match in the remaining text,
and when another pattern's match starts at the same position the selected
pattern is the one declared no later in the fixed pattern list — so the
span decomposition is a deterministic function of the input text,
independent of which pattern is evaluated first. -/
theorem select_earliest (t : List Char) (sel : Sel) (h : select t = some sel) :
    scanOf sel.kind t = some (sel.pre, sel.cap, sel.rest)
    ∧ ∀ (k : PatKind) (p cp r : List Char), scanOf k t = some (p, cp, r) →
        sel.pre.length ≤ p.length
        ∧ (sel.pre.length = p.length → patIdx sel.kind ≤ patIdx k) := by
  refine ⟨select_eq_some_scan h, ?_⟩
  intro k p cp r hk
  unfold select at h
  rcases h1 : scanOf .bold t with _ | ⟨p1, c1, r1⟩ <;>
  rcases h2 : scanOf .italic t with _ | ⟨p2, c2, r2⟩ <;>
  rcases h3 : scanOf .underline t with _ | ⟨p3, c3, r3⟩ <;>
  rcases h4 : scanOf .math t with _ | ⟨p4, c4, r4⟩ <;>
    rw [h1, h2, h3, h4] at h <;>
    simp only [asSel, Option.map_some', Option.map_none'] at h <;>
    repeat' (first
      | split_ifs at h
      | simp only [better] at h)
  all_goals cases h
  all_goals
    cases k <;>
      [rw [h1] at hk; rw [h2] at hk; rw [h3] at hk; rw [h4] at hk] <;>
      (try cases hk) <;>
      exact ⟨by dsimp only; omega,
        fun he => by dsimp only at he ⊢; simp only [patIdx]; omega⟩

/-- Witness for C2: in `ab$x$\textbf{y}` the math match (start 2) is selected
over the bold match (start 5). -/
theorem select_earliest_witness :
    select ("ab$x$\\textbf\x7by\x7d".toList)
      = some ⟨.math, ("ab".toList), ("x".toList), ("\\textbf\x7by\x7d".toList)⟩
    ∧ (Sel.mk .math ("ab".toList) ("x".toList) ("\\textbf\x7by\x7d".toList)).pre.length
      ≤ ("ab$x$".toList).length :=
  ⟨by decide,
   ((select_earliest ("ab$x$\\textbf\x7by\x7d".toList)
      ⟨.math, ("ab".toList), ("x".toList), ("\\textbf\x7by\x7d".toList)⟩ (by decide)).2
     .bold ("ab$x$".toList) ("y".toList) [] (by decide)).1⟩

/-- C1 counterexample: tokenizing nested bold+italic+underline markers does
not yield a single span with all three flags: it yields a bold-only span
whose text is the raw inner markup up to the first closing brace, followed
by a plain span holding the leftover braces. -/
theorem applyInline_nested_cex :
    applyInline ("\\textbf\x7b\\textit\x7b\\underline\x7bhi\x7d\x7d\x7d".toList)
      = [⟨("\\textit\x7b\\underline\x7bhi".toList), true, false, false⟩,
         ⟨("\x7d\x7d".toList), false, false, false⟩] := by decide

theorem unescape_textit_underline (x : List Char) :
    unescape_latex (("\\textit\x7b\\underline\x7b".toList) ++ x)
      = ("\\textit\x7b\\underline\x7b".toList) ++ unescape_latex x := by
  rw [show (("\\textit\x7b\\underline\x7b".toList) ++ x)
      = '\\' :: 't' :: 'e' :: 'x' :: 't' :: 'i' :: 't' :: '\x7b'
        :: '\\' :: 'u' :: 'n' :: 'd' :: 'e' :: 'r' :: 'l' :: 'i' :: 'n' :: 'e' :: '\x7b' :: x
      from rfl]
  rw [unescape_bs_cons (by decide), unescape_cons_ne (by decide),
    unescape_cons_ne (by decide), unescape_cons_ne (by decide),
    unescape_cons_ne (by decide), unescape_cons_ne (by decide),
    unescape_cons_ne (by decide), unescape_cons_ne (by decide),
    unescape_bs_cons (by decide), unescape_cons_ne (by decide),
    unescape_cons_ne (by decide), unescape_cons_ne (by decide),
    unescape_cons_ne (by decide), unescape_cons_ne (by decide),
    unescape_cons_ne (by decide), unescape_cons_ne (by decide),
    unescape_cons_ne (by decide), unescape_cons_ne (by decide),
    unescape_cons_ne (by decide)]
  rfl

/-- C1 amended: for every text of the form `pre ++ nested markers ++ post`
(with the surrounding text free of backslashes and dollar signs and the
inner text free of backslashes, dollar signs and closing braces), the tokenizer emits the preceding text byte-for-byte as one
unformatted span, then ONE formatted span carrying only the outermost
(bold) flag whose text is the raw inner markup up to the first closing
brace — the nested italic and underline markers are not recursed into and
contribute no flags — then one final unformatted span holding the two
leftover closing braces and the following text byte-for-byte. -/
theorem applyInline_nested_markers (pre inner post : List Char)
    (hpre : ∀ c ∈ pre, c ≠ '\\' ∧ c ≠ '$')
    (hinner : ∀ c ∈ inner, c ≠ '\\' ∧ c ≠ '$' ∧ c ≠ '\x7d')
    (hpost : ∀ c ∈ post, c ≠ '\\' ∧ c ≠ '$') :
    applyInline (pre ++ ("\\textbf\x7b\\textit\x7b\\underline\x7b".toList) ++ inner
        ++ ("\x7d\x7d\x7d".toList) ++ post)
      = (if pre = [] then [] else [⟨pre, false, false, false⟩])
        ++ [⟨("\\textit\x7b\\underline\x7b".toList) ++ inner, true, false, false⟩,
            ⟨'\x7d' :: '\x7d' :: post, false, false, false⟩] := by
  have hpre1 : ∀ c ∈ pre, c ≠ '\\' := fun c hc => (hpre c hc).1
  have hcap0 : ("\\textit\x7b\\underline\x7b".toList) ++ inner ≠ [] := by
    intro heq
    rcases List.append_eq_nil.mp heq with ⟨h1, _⟩
    exact absurd h1 (by decide)
  have hcapnb : '\x7d' ∉ ("\\textit\x7b\\underline\x7b".toList) ++ inner := by
    intro hm
    rcases List.mem_append.mp hm with hm | hm
    · exact absurd hm (by decide)
    · exact (hinner _ hm).2.2 rfl
  have ht : pre ++ ("\\textbf\x7b\\textit\x7b\\underline\x7b".toList) ++ inner
        ++ ("\x7d\x7d\x7d".toList) ++ post
      = pre ++ (('\\' :: ("textbf".toList)) ++ '\x7b'
          :: ((("\\textit\x7b\\underline\x7b".toList) ++ inner) ++ '\x7d'
            :: ('\x7d' :: '\x7d' :: post))) := by
    rw [show ("\\textbf\x7b\\textit\x7b\\underline\x7b".toList)
        = ('\\' :: ("textbf".toList)) ++ '\x7b' :: ("\\textit\x7b\\underline\x7b".toList)
        from by decide]
    rw [show ("\x7d\x7d\x7d".toList) = '\x7d' :: '\x7d' :: '\x7d' :: [] from rfl]
    simp [List.append_assoc]
  have hscanB : scanOf .bold
        (pre ++ ("\\textbf\x7b\\textit\x7b\\underline\x7b".toList) ++ inner
          ++ ("\x7d\x7d\x7d".toList) ++ post)
      = some (pre, ("\\textit\x7b\\underline\x7b".toList) ++ inner,
          '\x7d' :: '\x7d' :: post) := by
    show scanCmd cmdTextbf _ = _
    rw [show cmdTextbf = '\\' :: ("textbf".toList) from rfl, ht]
    exact scanCmd_pre_exact hpre1 hcap0 hcapnb
  have hscanI : ∀ p cp r, scanOf .italic
        (pre ++ ("\\textbf\x7b\\textit\x7b\\underline\x7b".toList) ++ inner
          ++ ("\x7d\x7d\x7d".toList) ++ post) = some (p, cp, r) →
      pre.length ≤ p.length := by
    intro p cp r hk
    simp only [scanOf] at hk
    rw [show cmdTextit = '\\' :: ("textit".toList) from rfl, ht] at hk
    exact scanCmd_bs_lower hpre1 hk
  have hscanU : ∀ p cp r, scanOf .underline
        (pre ++ ("\\textbf\x7b\\textit\x7b\\underline\x7b".toList) ++ inner
          ++ ("\x7d\x7d\x7d".toList) ++ post) = some (p, cp, r) →
      pre.length ≤ p.length := by
    intro p cp r hk
    simp only [scanOf] at hk
    rw [show cmdUnderline = '\\' :: ("underline".toList) from rfl, ht] at hk
    exact scanCmd_bs_lower hpre1 hk
  have hscanM : scanOf .math
        (pre ++ ("\\textbf\x7b\\textit\x7b\\underline\x7b".toList) ++ inner
          ++ ("\x7d\x7d\x7d".toList) ++ post) = none := by
    show scanMath _ = none
    apply scanMath_none_dollar
    intro c hc
    simp only [List.mem_append] at hc
    rcases hc with (((hc | hc) | hc) | hc) | hc
    · exact (hpre c hc).2
    · exact (by decide : ∀ x ∈ ("\\textbf\x7b\\textit\x7b\\underline\x7b".toList), x ≠ '$') c hc
    · exact (hinner c hc).2.1
    · exact (by decide : ∀ x ∈ ("\x7d\x7d\x7d".toList), x ≠ '$') c hc
    · exact (hpost c hc).2
  have hsel : select (pre ++ ("\\textbf\x7b\\textit\x7b\\underline\x7b".toList) ++ inner
        ++ ("\x7d\x7d\x7d".toList) ++ post)
      = some ⟨.bold, pre, ("\\textit\x7b\\underline\x7b".toList) ++ inner,
          '\x7d' :: '\x7d' :: post⟩ := by
    unfold select
    rw [hscanB, hscanM]
    rw [show asSel .bold (some (pre, ("\\textit\x7b\\underline\x7b".toList) ++ inner,
        '\x7d' :: '\x7d' :: post))
      = some ⟨.bold, pre, ("\\textit\x7b\\underline\x7b".toList) ++ inner,
          '\x7d' :: '\x7d' :: post⟩ from rfl]
    rw [show better none (some ⟨PatKind.bold, pre,
        ("\\textit\x7b\\underline\x7b".toList) ++ inner, '\x7d' :: '\x7d' :: post⟩)
      = some ⟨PatKind.bold, pre, ("\\textit\x7b\\underline\x7b".toList) ++ inner,
          '\x7d' :: '\x7d' :: post⟩ from rfl]
    rw [better_keep hscanI, better_keep hscanU]
    rfl
  have hnb2 : ∀ c ∈ ('\x7d' :: '\x7d' :: post), c ≠ '\\' := by
    intro c hc
    simp only [List.mem_cons] at hc
    rcases hc with rfl | rfl | hc
    · decide
    · decide
    · exact (hpost c hc).1
  have hnd2 : ∀ c ∈ ('\x7d' :: '\x7d' :: post), c ≠ '$' := by
    intro c hc
    simp only [List.mem_cons] at hc
    rcases hc with rfl | rfl | hc
    · decide
    · decide
    · exact (hpost c hc).2
  have hrest : applyInline ('\x7d' :: '\x7d' :: post)
      = [⟨'\x7d' :: '\x7d' :: post, false, false, false⟩] := by
    have e1 : scanOf .bold ('\x7d' :: '\x7d' :: post) = none := by
      show scanCmd cmdTextbf _ = none
      rw [show cmdTextbf = '\\' :: ("textbf".toList) from rfl]
      exact scanCmd_none_bs hnb2
    have e2 : scanOf .italic ('\x7d' :: '\x7d' :: post) = none := by
      show scanCmd cmdTextit _ = none
      rw [show cmdTextit = '\\' :: ("textit".toList) from rfl]
      exact scanCmd_none_bs hnb2
    have e3 : scanOf .underline ('\x7d' :: '\x7d' :: post) = none := by
      show scanCmd cmdUnderline _ = none
      rw [show cmdUnderline = '\\' :: ("underline".toList) from rfl]
      exact scanCmd_none_bs hnb2
    have e4 : scanOf .math ('\x7d' :: '\x7d' :: post) = none :=
      scanMath_none_dollar hnd2
    have hnone : select ('\x7d' :: '\x7d' :: post) = none := by
      unfold select
      rw [e1, e2, e3, e4]
      rfl
    rw [applyInline_of_select_none hnone, unescape_no_bs hnb2, if_neg (by simp)]
  have hupre : unescape_latex pre = pre := unescape_no_bs hpre1
  have hucap : unescape_latex (("\\textit\x7b\\underline\x7b".toList) ++ inner)
      = ("\\textit\x7b\\underline\x7b".toList) ++ inner := by
    rw [unescape_textit_underline, unescape_no_bs (fun c hc => (hinner c hc).1)]
  rw [applyInline_of_select_some hsel]
  dsimp only
  rw [hupre, hucap, hrest]
  simp [mkRun]

/-- Witness for C1 amended at concrete surrounding text and inner text. -/
theorem applyInline_nested_markers_witness :
    applyInline ("Hi \\textbf\x7b\\textit\x7b\\underline\x7bok\x7d\x7d\x7d now".toList)
      = [⟨("Hi ".toList), false, false, false⟩,
         ⟨("\\textit\x7b\\underline\x7bok".toList), true, false, false⟩,
         ⟨("\x7d\x7d now".toList), false, false, false⟩] :=
  (applyInline_nested_markers ("Hi ".toList) ("ok".toList) (" now".toList)
    (by decide) (by decide) (by decide)).trans (by decide)

/-- C6 counterexample: in a list block whose single item spans two lines,
the extracted item text stops at the first newline — not at the next item
keyword, a blank line, or the environment close, as the claim states — so
the item's second line is lost. -/
theorem findItems_newline_cex :
    findItems
        ("\\begin\x7bitemize\x7d\n\\item first line\ncontinued here\n\\end\x7bitemize\x7d".toList)
      = [("first line".toList)]
    ∧ (addList
        ("\\begin\x7bitemize\x7d\n\\item first line\ncontinued here\n\\end\x7bitemize\x7d".toList)).2
      = [[⟨("first line".toList), false, false, false⟩]] :=
  ⟨by decide, by decide⟩

theorem firstLAL_spec {u : List Char} {off : Nat} (h : firstLAL u = some off) :
    laOk (u.drop off) = true ∧ ∀ j, j < off → laOk (u.drop j) = false := by
  induction u generalizing off with
  | nil => cases h
  | cons c s ih =>
    simp only [firstLAL] at h
    by_cases hla : laOk (c :: s) = true
    · rw [if_pos hla] at h
      cases h
      exact ⟨by simpa using hla, fun j hj => absurd hj (by omega)⟩
    · rw [if_neg hla] at h
      cases hf : firstLAL s with
      | none => rw [hf] at h; cases h
      | some off' =>
        simp only [hf, Option.map_some'] at h
        cases h
        obtain ⟨h1, h2⟩ := ih hf
        refine ⟨by simpa using h1, ?_⟩
        intro j hj
        cases j with
        | zero => simpa using hla
        | succ j' => simpa using h2 j' (by omega)

theorem tryK_top {w : List Char} {k off : Nat} (h : firstLAL (w.drop (k + 1)) = some off) :
    tryK w (k + 1) = some ((w.drop (k + 1)).take off, (w.drop (k + 1)).drop off) := by
  simp only [tryK, h]

theorem matchHere_spec {u : List Char} {off : Nat}
    (hpre : startsWith ("\\item".toList) u = true)
    (hW : 1 ≤ wsCount (u.drop 5))
    (h : firstLAL ((u.drop 5).drop (wsCount (u.drop 5))) = some off) :
    matchHere u = some (((u.drop 5).drop (wsCount (u.drop 5))).take off,
        ((u.drop 5).drop (wsCount (u.drop 5))).drop off)
    ∧ laOk (((u.drop 5).drop (wsCount (u.drop 5))).drop off) = true
    ∧ ∀ j, j < off → laOk (((u.drop 5).drop (wsCount (u.drop 5))).drop j) = false := by
  obtain ⟨k, hk⟩ : ∃ k, wsCount (u.drop 5) = k + 1 := ⟨wsCount (u.drop 5) - 1, by omega⟩
  obtain ⟨h1, h2⟩ := firstLAL_spec h
  refine ⟨?_, h1, h2⟩
  unfold matchHere
  rw [if_pos hpre, hk]
  rw [hk] at h
  exact tryK_top h

/-- C6 amended: each extracted item is appended as exactly one list-style
paragraph whose stripped text went through the inline run tokenizer; and the
item's text is the shortest capture that starts after the item keyword and
its greedily consumed whitespace run and whose end is followed by the next
item keyword, a NEWLINE character, or the next `\end` token — a single
newline, not a blank line, terminates an item, so multi-line items are
truncated at their first newline.  (Stated for positions where the lookahead
can still match at or after the end of the whitespace run; otherwise the
regex backtracks into the whitespace run itself.) -/
theorem addList_item_boundaries (block : List Char) :
    (addList block
      = (containsSub block ("\\begin\x7benumerate\x7d".toList),
         (findItems block).map (fun it => applyInline (pyStrip it))))
    ∧ ∀ (u : List Char) (off : Nat),
        startsWith ("\\item".toList) u = true →
        1 ≤ wsCount (u.drop 5) →
        firstLAL ((u.drop 5).drop (wsCount (u.drop 5))) = some off →
        matchHere u = some (((u.drop 5).drop (wsCount (u.drop 5))).take off,
            ((u.drop 5).drop (wsCount (u.drop 5))).drop off)
          ∧ laOk (((u.drop 5).drop (wsCount (u.drop 5))).drop off) = true
          ∧ ∀ j, j < off → laOk (((u.drop 5).drop (wsCount (u.drop 5))).drop j) = false :=
  ⟨rfl, fun _ _ hpre hW h => matchHere_spec hpre hW h⟩

/-- Witness for C6 amended: the single item of `\item abc\ndef` is captured
as `abc`, ending at the newline. -/
theorem addList_item_boundaries_witness :
    matchHere ("\\item abc\ndef".toList) = some (("abc".toList), ("\ndef".toList)) :=
  (((addList_item_boundaries ("\\item abc\ndef".toList)).2
      ("\\item abc\ndef".toList) 3 (by decide) (by decide) (by decide)).1).trans (by decide)

end DocTeX
